import Mathlib

/-!
Verification of the vk-music-downloader core against its specification.

Shallow embedding conventions:
* Byte strings (Python `bytes`) are `List Nat`, each element a byte value.
* Text strings (Python `str`) are `List Nat` of character code points,
  restricted to the ASCII range wherever a Python text operation
  (`str.lower`, `str.isdigit`, `str.strip`) is applied; on ASCII input the
  embedded operations agree with Python's exactly.
* Python `dict`/`set` values are embedded as structures / association
  lists / plain lists; `None` becomes `Option.none`.
* Network fetches, the AES block cipher, `urllib.parse.urljoin` and the
  attribute-regex of `parse_hls_attributes` are side-effecting or external
  library facilities: they are taken as explicit function parameters and
  never interpreted, so every theorem holds for an arbitrary choice.
-/

/-- Text: a Python `str` as its list of character code points. -/
abbrev Str := List Nat

/-- Bytes: a Python `bytes` value as its list of byte values. -/
abbrev Bytes := List Nat

/-- Code points of a Lean string literal, used to spell out the
manifest directive constants from `download.py`. -/
def strCodes (s : String) : Str :=
  s.toList.map Char.toNat

/-- Model of Python `str.lower` on a single ASCII code point
(`'A'..'Z'` map to `'a'..'z'`, everything else unchanged). -/
def toLowerCode (c : Nat) : Nat :=
  if 65 ≤ c ∧ c ≤ 90 then c + 32 else c

/-- Model of Python `str.isspace` for one ASCII code point
(tab..carriage-return, the separator controls 28..31, and space). -/
def isSpaceCode (c : Nat) : Bool :=
  decide ((9 ≤ c ∧ c ≤ 13) ∨ (28 ≤ c ∧ c ≤ 31) ∨ c = 32)

/-- Model of Python `str.strip()` (ASCII whitespace removed from both
ends). -/
def stripWs (s : Str) : Str :=
  ((s.dropWhile isSpaceCode).reverse.dropWhile isSpaceCode).reverse

/-- One ASCII decimal digit code point. -/
def isDigitCode (c : Nat) : Bool :=
  decide (48 ≤ c ∧ c ≤ 57)

/-- Model of Python `str.isdigit` restricted to ASCII input: true iff the
string is non-empty and all characters are decimal digits.  (Python's
`str.isdigit` additionally accepts non-ASCII Unicode digit characters,
which never occur in the ASCII manifest directives modelled here.) -/
def pyIsDigits (s : Str) : Bool :=
  decide (s ≠ []) && s.all isDigitCode

/-- Model of Python `int(value)` on a string of ASCII decimal digits. -/
def parseNatDigits (s : Str) : Nat :=
  s.foldl (fun a c => 10 * a + (c - 48)) 0

/-! ## Cipher unit (`download.py`: `maybe_unpad_pkcs7`, `decrypt_hls_segment`) -/

/-- `maybe_unpad_pkcs7` from `download.py` lines 45-51: if the data is
non-empty, its last byte `pad_len` is between 1 and 16, and the data ends
with `pad_len` copies of `pad_len`, drop those bytes (`data[:-pad_len]`);
otherwise return the data unchanged. -/
def maybe_unpad_pkcs7 (data : Bytes) : Bytes :=
  match data.getLast? with
  | none => data
  | some pad_len =>
    if 1 ≤ pad_len ∧ pad_len ≤ 16 ∧ (List.replicate pad_len pad_len).isSuffixOf data
    then data.take (data.length - pad_len)
    else data

/-- Value of one hex digit character, as in Python `bytes.fromhex`
(`0-9`, `a-f`, `A-F`); `none` on any other character. -/
def hexVal (c : Nat) : Option Nat :=
  if 48 ≤ c ∧ c ≤ 57 then some (c - 48)
  else if 97 ≤ c ∧ c ≤ 102 then some (c - 97 + 10)
  else if 65 ≤ c ∧ c ≤ 70 then some (c - 65 + 10)
  else none

/-- Model of Python `bytes.fromhex` on whitespace-free input: decode
consecutive pairs of hex digits to bytes, failing (Python `ValueError`)
on an odd-length string or a non-hex character. -/
def bytesFromHex : Str → Option Bytes
  | [] => some []
  | [_] => none
  | c1 :: c2 :: rest =>
    match hexVal c1, hexVal c2, bytesFromHex rest with
    | some h, some l, some bs => some ((16 * h + l) :: bs)
    | _, _, _ => none

/-- The check `iv_hex.lower().startswith("0x")` from `download.py`
line 119: the first two characters, lowercased, are `0` and `x`. -/
def startsWith0x (s : Str) : Bool :=
  match s with
  | c0 :: c1 :: _ => decide (toLowerCode c0 = 48 ∧ toLowerCode c1 = 120)
  | _ => false

/-- Big-endian byte list of given length, the value of Python
`n.to_bytes(len, byteorder="big")` when it does not overflow. -/
def natToBytesBE : Nat → Nat → Bytes
  | 0, _ => []
  | k + 1, n => natToBytesBE k (n / 256) ++ [n % 256]

/-- IV selection of `decrypt_hls_segment` (`download.py` lines 118-122):
a truthy (non-empty) `iv_hex` is hex-decoded after stripping an optional
`0x`/`0X` spelling; otherwise the IV is
`sequence.to_bytes(16, byteorder="big")`.  `none` models the Python
exceptions (`ValueError` from `bytes.fromhex`, `OverflowError` from
`to_bytes` on a negative or too-large sequence number). -/
def deriveIV (ivHex : Option Str) (sequence : Int) : Option Bytes :=
  match ivHex with
  | some s =>
    if s ≠ [] then
      bytesFromHex (if startsWith0x s then s.drop 2 else s)
    else
      if 0 ≤ sequence ∧ sequence < (256 : Int) ^ 16
      then some (natToBytesBE 16 sequence.toNat) else none
  | none =>
    if 0 ≤ sequence ∧ sequence < (256 : Int) ^ 16
    then some (natToBytesBE 16 sequence.toNat) else none

/-- `decrypt_hls_segment` from `download.py` lines 110-125, with the AES
library call `AES.new(key, MODE_CBC, iv).decrypt(data)` abstracted as the
function argument `cipher key iv data`.  `none` models a raised
exception while deriving the IV. -/
def decrypt_hls_segment (cipher : Bytes → Bytes → Bytes → Bytes)
    (data key_bytes : Bytes) (iv_hex : Option Str) (sequence : Int) : Option Bytes :=
  match deriveIV iv_hex sequence with
  | none => none
  | some iv => some (maybe_unpad_pkcs7 (cipher key_bytes iv data))

/-! ## Manifest parser (`download.py`: `parse_hls_segments`) -/

/-- The "current key" dictionary maintained by `parse_hls_segments`
(`download.py` line 60): `{"METHOD": ..., "URI": ..., "IV": ...}`. -/
structure KeyState where
  method : Option Str
  uri : Option Str
  iv : Option Str
deriving DecidableEq

/-- All-`None` initial key state (`download.py` line 60). -/
def initKeyState : KeyState := ⟨none, none, none⟩

/-- One segment dictionary appended by `parse_hls_segments`
(`download.py` lines 88-94): resolved url, a copy of the current key
state, and `sequence = media_sequence + len(segments)`. -/
structure Seg where
  url : Str
  key : KeyState
  sequence : Int
deriving DecidableEq

/-- Attribute list of a directive, the result of
`parse_hls_attributes` (kept abstract, see `ParseCtx`). -/
abbrev Attrs := List (Str × Str)

/-- A collected variant dictionary (`download.py` lines 73-75): the
pending `#EXT-X-STREAM-INF` attributes plus the resolved `URI`. -/
structure RawVariant where
  attrs : Attrs
  uri : Str
deriving DecidableEq

/-- Mutable state of the `parse_hls_segments` line loop
(`download.py` lines 59-63). -/
structure PState where
  media_sequence : Int
  current_key : KeyState
  segments : List Seg
  stream_variants : List RawVariant
  pending_stream_inf : Option Attrs

/-- Initial loop state of `parse_hls_segments`: base 0, all-`None` key,
no segments, no variants, no pending variant. -/
def initPState : PState := ⟨0, initKeyState, [], [], none⟩

/-- External facilities used by the parser, taken abstractly:
`urljoin` from `urllib.parse`, the regex-based `parse_hls_attributes`,
and the composite that builds the current-key dictionary from an
`#EXT-X-KEY` attribute string (`download.py` lines 78-83, including its
inner `urljoin`).  `baseUrl` is the `playlist_url` argument. -/
structure ParseCtx where
  uj : Str → Str → Str
  parseAttrs : Str → Attrs
  parseKeyLine : Str → KeyState
  baseUrl : Str

/-- The directive `#EXT-X-MEDIA-SEQUENCE:` as code points. -/
def mediaSeqDirective : Str := strCodes "#EXT-X-MEDIA-SEQUENCE:"

/-- The directive `#EXT-X-STREAM-INF:` as code points. -/
def streamInfDirective : Str := strCodes "#EXT-X-STREAM-INF:"

/-- The directive `#EXT-X-KEY:` as code points. -/
def keyDirective : Str := strCodes "#EXT-X-KEY:"

/-- The playlist signature line `#EXTM3U` as code points. -/
def extm3uLine : Str := strCodes "#EXTM3U"

/-- Truthiness of the `pending_stream_inf` dictionary
(`download.py` line 72): it is set and non-empty. -/
def pendingTruthy (st : PState) : Bool :=
  match st.pending_stream_inf with
  | some a => decide (a ≠ [])
  | none => false

/-- One iteration of the `for line in lines` loop of
`parse_hls_segments` (`download.py` lines 65-94), with the branch
conditions in source order.  In the `#EXT-X-MEDIA-SEQUENCE` branch the
base is replaced only when the value `isdigit()`; in the segment branch
the appended dictionary copies the current key state and records
`sequence = media_sequence + len(segments)`. -/
def processLine (ctx : ParseCtx) (st : PState) (line : Str) : PState :=
  if mediaSeqDirective.isPrefixOf line then
    if pyIsDigits (line.drop mediaSeqDirective.length) then
      { st with media_sequence :=
          (parseNatDigits (line.drop mediaSeqDirective.length) : Int) }
    else st
  else if streamInfDirective.isPrefixOf line then
    { st with pending_stream_inf := some (ctx.parseAttrs (line.drop streamInfDirective.length)) }
  else if pendingTruthy st ∧ line.head? ≠ some 35 then
    { st with
      stream_variants := st.stream_variants ++
        [⟨(st.pending_stream_inf.getD []), ctx.uj ctx.baseUrl line⟩],
      pending_stream_inf := none }
  else if keyDirective.isPrefixOf line then
    { st with current_key := ctx.parseKeyLine (line.drop keyDirective.length) }
  else if line.head? = some 35 then
    st
  else
    { st with segments := st.segments ++
        [⟨ctx.uj ctx.baseUrl line, st.current_key,
          st.media_sequence + (st.segments.length : Int)⟩] }

/-- The whole line loop of `parse_hls_segments`. -/
def processLines (ctx : ParseCtx) (st : PState) (lines : List Str) : PState :=
  lines.foldl (processLine ctx) st

/-- Line preprocessing of `parse_hls_segments` (`download.py` line 55):
strip every line, drop the blank ones. -/
def preprocessLines (raw : List Str) : List Str :=
  (raw.map stripWs).filter (fun l => decide (l ≠ []))

/-! ## Variant selection (`download.py` lines 96-98) -/

/-- A variant as seen by the selection step, with
`bandwidth = int(v.get("BANDWIDTH", "0"))` already evaluated (the claims
about selection concern variants whose bandwidth attribute is a decimal
number, where this parse is total). -/
structure Variant where
  uri : Str
  bandwidth : Nat
deriving DecidableEq

/-- Stable descending insertion by bandwidth: `v` is placed before the
first element whose bandwidth is not larger, so among equal bandwidths
earlier (original-order) elements stay first.  This is the extensional
behaviour of Python's stable `list.sort(key=bandwidth, reverse=True)`. -/
def insertDescByBw (v : Variant) : List Variant → List Variant
  | [] => [v]
  | w :: ws => if w.bandwidth > v.bandwidth then w :: insertDescByBw v ws else v :: w :: ws

/-- Model of `stream_variants.sort(key=lambda v: int(v.get("BANDWIDTH", "0")), reverse=True)`
(`download.py` line 97): a stable descending sort by bandwidth. -/
def sortVariantsDesc : List Variant → List Variant
  | [] => []
  | v :: vs => insertDescByBw v (sortVariantsDesc vs)

/-- `stream_variants[0]` after the descending sort
(`download.py` line 98): the variant the master-manifest resolution
recurses into. -/
def selectVariant (vs : List Variant) : Option Variant :=
  (sortVariantsDesc vs).head?

/-! ## Provider matcher (`get_metadata/common.py`, `get_metadata/itunes.py`) -/

/-- `normalize_for_match` from `common.py` lines 7-8:
`re.sub(r"[^a-z0-9]+", "", value.lower())` — lowercase, then keep only
`a-z` and `0-9`. -/
def normalize_for_match (s : Str) : Str :=
  (s.map toLowerCode).filter
    (fun c => decide ((97 ≤ c ∧ c ≤ 122) ∨ (48 ≤ c ∧ c ≤ 57)))

/-- The metadata mapping built by `build_metadata` (`common.py`):
string keys `title, artist, album, date, genre`, each present or absent. -/
structure Metadata where
  title : Option Str
  artist : Option Str
  album : Option Str
  date : Option Str
  genre : Option Str
deriving DecidableEq

/-- `build_metadata` from `common.py` lines 11-30: each argument is
stripped; a key is stored exactly when the stripped value is non-empty. -/
def build_metadata (title artist album date genre : Str) : Metadata :=
  { title := if stripWs title ≠ [] then some (stripWs title) else none
    artist := if stripWs artist ≠ [] then some (stripWs artist) else none
    album := if stripWs album ≠ [] then some (stripWs album) else none
    date := if stripWs date ≠ [] then some (stripWs date) else none
    genre := if stripWs genre ≠ [] then some (stripWs genre) else none }

/-- One iTunes result dictionary, restricted to the keys `lookup` reads.
A field is `none` when the key is absent or holds `None`.  `isEmptyDict`
records whether the whole dictionary is empty (falsy) — Python's
`if not best_item` test depends on it, and it is not a function of the
five tracked fields. -/
structure Item where
  trackName : Option Str
  artistName : Option Str
  collectionName : Option Str
  releaseDate : Option Str
  primaryGenreName : Option Str
  isEmptyDict : Bool
deriving DecidableEq

/-- One entry of the raw `results` list: `none` models a non-`dict` JSON
entry, skipped by the `isinstance` check in `itunes.py` line 31. -/
abbrev JItem := Option Item

/-- Python substring containment `a in b` for strings: `a` occurs as a
contiguous run inside `b` (always true for empty `a`). -/
def isSubstr (a b : Str) : Bool :=
  (List.range (b.length + 1)).any (fun i => a.isPrefixOf (b.drop i))

/-- Python `x or default` for an optional string field:
the field's value when present and non-empty, the default otherwise. -/
def pyOr (o : Option Str) (d : Str) : Str :=
  match o with
  | some s => if s ≠ [] then s else d
  | none => d

/-- Strict Python comparison `rank > best_rank` on `(int, int)` tuples:
lexicographic. -/
def lexGt (a b : Int × Int) : Prop :=
  a.1 > b.1 ∨ (a.1 = b.1 ∧ a.2 > b.2)

instance (a b : Int × Int) : Decidable (lexGt a b) := by
  unfold lexGt; infer_instance

/-- The rank tuple computed for one candidate in `itunes.py` lines
33-39: `(title_exact, artist_match)`, where `title_exact` is 1 iff the
normalized candidate title equals the normalized query title, and
`artist_match` is 1 iff either normalized artist is a substring of the
other. -/
def rankOf (artist title : Str) (it : Item) : Int × Int :=
  let item_title := normalize_for_match (pyOr it.trackName [])
  let item_artist := normalize_for_match (pyOr it.artistName [])
  ((if item_title = normalize_for_match title then 1 else 0),
   (if isSubstr (normalize_for_match artist) item_artist
       || isSubstr item_artist (normalize_for_match artist) then 1 else 0))

/-- The candidate loop of `itunes.py` lines 27-42 over the dictionary
entries only: keep the first candidate whose rank strictly exceeds the
best rank so far. -/
def pickBestGo (artist title : Str) : List Item → Int × Int → Option Item → Option Item
  | [], _, best => best
  | it :: rest, best_rank, best =>
    if lexGt (rankOf artist title it) best_rank then
      pickBestGo artist title rest (rankOf artist title it) (some it)
    else pickBestGo artist title rest best_rank best

/-- The full candidate loop of `itunes.py` lines 27-42, starting from
`best_rank = (-1, -1)` and `best_item = None` and skipping non-`dict`
entries. -/
def itunes_pick (artist title : Str) (results : List JItem) : Option Item :=
  pickBestGo artist title (results.filterMap id) (-1, -1) none

/-- The metadata built from the best item (`itunes.py` lines 47-56):
`releaseDate` truncated to 10 characters, `trackName`/`artistName`
falling back to the query values when absent or empty. -/
def metadataFromItem (artist title : Str) (it : Item) : Metadata :=
  let release_date := pyOr it.releaseDate []
  let release_date := if release_date ≠ [] then release_date.take 10 else []
  build_metadata (pyOr it.trackName title) (pyOr it.artistName artist)
    (pyOr it.collectionName []) release_date (pyOr it.primaryGenreName [])

/-- `lookup` from `itunes.py` after the network call, as a function of
the `results` field of the response (`none` when the field is absent or
not a list): return `None` when the list is missing or empty, when no
dictionary candidate exists, or when the best item is a falsy (empty)
dictionary; otherwise build the metadata from the best item. -/
def itunes_lookup (artist title : Str) (resultsField : Option (List JItem)) :
    Option Metadata :=
  match resultsField with
  | none => none
  | some results =>
    if results = [] then none
    else
      match itunes_pick artist title results with
      | none => none
      | some it =>
        if it.isEmptyDict then none
        else some (metadataFromItem artist title it)

/-! ## Resilience layer (`vk_audio/metadata.py`: `MetadataEnricher`) -/

/-- Source-health state of one `MetadataEnricher` session
(`metadata.py` lines 39-40): the `_consecutive_network_failures`
counters (defaulting to 0, as `dict.get(source, 0)` does) and the
`_disabled_sources` set, modelled as a list with membership semantics.
The request timestamps used only for throttling are not part of the
health state. -/
structure EnrState where
  failures : Str → Nat
  disabled : List Str

/-- Fresh enricher state: no failures recorded, nothing disabled. -/
def initEnrState : EnrState := ⟨fun _ => 0, []⟩

/-- The final-attempt exception path of `request_json`
(`metadata.py` lines 169-177): increment the source's consecutive
failure counter and, when the new value reaches 3, add the source to the
disabled set. -/
def recordFailure (st : EnrState) (s : Str) : EnrState :=
  { failures := fun t => if t = s then st.failures s + 1 else st.failures t
    disabled := if 3 ≤ st.failures s + 1 then s :: st.disabled else st.disabled }

/-- The counter reset performed by `lookup` when a source returns a
truthy metadata mapping (`metadata.py` line 117). -/
def resetFailures (st : EnrState) (s : Str) : EnrState :=
  { st with failures := fun t => if t = s then 0 else st.failures t }

/-- Outcome of one attempt inside the `request_json` retry loop: the
session `get` either raises a transport exception or returns a response
with the given status code. -/
inductive AttemptRes where
  | exc
  | status (code : Nat)

/-- The retryable status set of `request_json` (`metadata.py` line 131). -/
def retryableStatus (c : Nat) : Prop :=
  c = 429 ∨ c = 500 ∨ c = 502 ∨ c = 503 ∨ c = 504

instance (c : Nat) : Decidable (retryableStatus c) := by
  unfold retryableStatus; infer_instance

/-- The retry loop of `request_json` (`metadata.py` lines 135-178) with
`max_attempts = 4`.  `att a` is the result of the attempt numbered `a`;
`fuel` counts the remaining attempts (structural recursion).  A
retryable status with attempts left retries; any other error status
makes `raise_for_status` raise, which the `except` clause catches —
retrying if attempts are left, otherwise recording the failure and
propagating (`.error`).  A success (status < 400) breaks out of the loop
with the health state untouched; the result of a non-exceptional call
carries the status code. -/
def rjGo (s : Str) (att : Nat → AttemptRes) : Nat → Nat → EnrState →
    EnrState × Except Unit Nat
  | _, 0, st => (st, .error ())
  | a, fuel + 1, st =>
    match att a with
    | .status c =>
      if retryableStatus c ∧ a < 4 then rjGo s att (a + 1) fuel st
      else if 400 ≤ c then
        if a < 4 then rjGo s att (a + 1) fuel st
        else (recordFailure st s, .error ())
      else (st, .ok c)
    | .exc =>
      if a < 4 then rjGo s att (a + 1) fuel st
      else (recordFailure st s, .error ())

/-- `request_json` as a health-state transition: run the retry loop from
attempt 1 with 4 attempts available. -/
def request_json (st : EnrState) (s : Str) (att : Nat → AttemptRes) :
    EnrState × Except Unit Nat :=
  rjGo s att 1 4 st

/-- Truthiness of the optional metadata mapping a provider returned
(`if metadata:` in `metadata.py` line 115): present and non-empty as a
dictionary. -/
def mdTruthy (m : Option Metadata) : Bool :=
  match m with
  | none => false
  | some md =>
    md.title.isSome || md.artist.isSome || md.album.isSome ||
      md.date.isSome || md.genre.isSome

/-- Net effect of one provider call from `lookup`'s point of view:
either the call raised a `RequestException` after exhausting its retries
(which,  inside `request_json`, recorded a failure for the source), or it
completed and produced an optional metadata mapping. -/
inductive Outcome where
  | netFail
  | ok (m : Option Metadata)

/-- Result of a `lookup` run: the final health state, the sources that
were actually queried (in order), and the returned metadata, if any. -/
structure LookupRes where
  finalState : EnrState
  queried : List Str
  found : Option Metadata

/-- The provider loop of `lookup` (`metadata.py` lines 102-119):
disabled sources are skipped without a call; a raising source records
its failure and the loop continues; a source whose metadata is falsy
continues without touching the counters; the first truthy metadata
resets the source's counter and is returned. -/
def lookupRun (oc : Str → Outcome) : EnrState → List Str → LookupRes
  | st, [] => ⟨st, [], none⟩
  | st, s :: rest =>
    if s ∈ st.disabled then lookupRun oc st rest
    else
      match oc s with
      | .netFail =>
        let r := lookupRun oc (recordFailure st s) rest
        ⟨r.finalState, s :: r.queried, r.found⟩
      | .ok m =>
        if mdTruthy m then ⟨resetFailures st s, [s], m⟩
        else
          let r := lookupRun oc st rest
          ⟨r.finalState, s :: r.queried, r.found⟩

/-! ## Transport resolver (`download.py`: `download_hls`) -/

/-- The string `"AES-128"` as code points. -/
def aes128Codes : Str := strCodes "AES-128"

/-- External facilities of `download_hls`, abstracted: the segment and
key HTTP fetches and the AES-CBC decryption (as in
`decrypt_hls_segment`). -/
structure DlCtx where
  fetchSeg : Str → Bytes
  fetchKey : Str → Bytes
  cipher : Bytes → Bytes → Bytes → Bytes

/-- Errors of the segment loop: `manifest` is the
`HlsParseError("HLS segment is encrypted but key URI is missing.")`
raised at `download.py` line 144, `value` a `ValueError`/`OverflowError`
escaping `decrypt_hls_segment`. -/
inductive DlErr where
  | manifest
  | value
deriving DecidableEq

/-- Observable result of the segment loop of `download_hls`: the bytes
written to the output file, the segment URLs fetched, the key URIs
fetched over the network (cache misses), and the error that aborted the
loop, if any. -/
structure DlRes where
  written : Bytes
  fetchedSegs : List Str
  fetchedKeys : List Str
  err : Option DlErr
deriving DecidableEq

/-- Python truthiness of the optional key URI (`if not key_uri` at
`download.py` line 143): present and non-empty. -/
def truthyOpt (o : Option Str) : Option Str :=
  match o with
  | some s => if s ≠ [] then some s else none
  | none => none

/-- The per-segment loop of `download_hls` (`download.py` lines
135-158): fetch the segment bytes; when the key method is `"AES-128"`,
fail with `HlsParseError` if the key URI is missing or empty, otherwise
obtain the key bytes (from the cache, fetching on a miss) and decrypt
with the segment's own IV/sequence; append the resulting bytes to the
output. -/
def downloadGo (ctx : DlCtx) :
    List Seg → List (Str × Bytes) → Bytes → List Str → List Str → DlRes
  | [], _, w, fs, fk => ⟨w, fs, fk, none⟩
  | seg :: rest, cache, w, fs, fk =>
    let data := ctx.fetchSeg seg.url
    let fs' := fs ++ [seg.url]
    if seg.key.method = some aes128Codes then
      match truthyOpt seg.key.uri with
      | none => ⟨w, fs', fk, some .manifest⟩
      | some u =>
        match cache.lookup u with
        | some kb =>
          match decrypt_hls_segment ctx.cipher data kb seg.key.iv seg.sequence with
          | none => ⟨w, fs', fk, some .value⟩
          | some plain => downloadGo ctx rest cache (w ++ plain) fs' fk
        | none =>
          let kb := ctx.fetchKey u
          match decrypt_hls_segment ctx.cipher data kb seg.key.iv seg.sequence with
          | none => ⟨w, fs', fk ++ [u], some .value⟩
          | some plain =>
            downloadGo ctx rest (cache ++ [(u, kb)]) (w ++ plain) fs' (fk ++ [u])
    else downloadGo ctx rest cache (w ++ data) fs' fk

/-- The segment loop of `download_hls` started with an empty key cache,
an empty output file and no fetches recorded. -/
def download_hls_segments (ctx : DlCtx) (segs : List Seg) : DlRes :=
  downloadGo ctx segs [] [] [] []

/-! ## Theorems -/

/-- Claim C2: `maybe_unpad_pkcs7` removes exactly the last `n` bytes iff
the final byte of `d` has value `n` with `1 ≤ n ≤ 16` and the last `n`
bytes of `d` all equal `n`; in every other case, including empty `d`, it
returns `d` unchanged. -/
theorem maybe_unpad_pkcs7_spec (d : Bytes) :
    (∀ n, d.getLast? = some n → 1 ≤ n → n ≤ 16 →
        d.drop (d.length - n) = List.replicate n n →
        maybe_unpad_pkcs7 d = d.take (d.length - n) ∧
        (maybe_unpad_pkcs7 d).length + n = d.length) ∧
    ((¬ ∃ n, d.getLast? = some n ∧ 1 ≤ n ∧ n ≤ 16 ∧
        d.drop (d.length - n) = List.replicate n n) →
      maybe_unpad_pkcs7 d = d) := by
  constructor
  · intro n hlast h1 h16 hdrop
    have hlen : d.length - (d.length - n) = n := by
      have := congrArg List.length hdrop
      simpa using this
    have hnle : n ≤ d.length := by omega
    have hsuf : (List.replicate n n).isSuffixOf d := by
      rw [List.isSuffixOf_iff_suffix, ← hdrop]
      exact List.drop_suffix _ _
    have heq : maybe_unpad_pkcs7 d = d.take (d.length - n) := by
      unfold maybe_unpad_pkcs7
      rw [hlast]
      simp [h1, h16, hsuf]
    refine ⟨heq, ?_⟩
    rw [heq]
    simp only [List.length_take]
    omega
  · intro hne
    unfold maybe_unpad_pkcs7
    cases hlast : d.getLast? with
    | none => rfl
    | some n =>
      have hcondF : ¬ (1 ≤ n ∧ n ≤ 16 ∧ (List.replicate n n).isSuffixOf d) := by
        rintro ⟨h1, h16, hsuf⟩
        apply hne
        rw [List.isSuffixOf_iff_suffix] at hsuf
        obtain ⟨t, ht⟩ := hsuf
        subst ht
        refine ⟨n, hlast, h1, h16, ?_⟩
        have hl : (t ++ List.replicate n n).length - n = t.length := by simp
        rw [hl, List.drop_left]
      exact if_neg hcondF

/-- Claim C2 witness: a concrete padded input is unpadded by exactly two
bytes, via the theorem. -/
theorem maybe_unpad_pkcs7_spec_witness :
    maybe_unpad_pkcs7 [7, 9, 2, 2] = [7, 9] ∧
    (maybe_unpad_pkcs7 [7, 9, 2, 2]).length + 2 = 4 := by
  have h := (maybe_unpad_pkcs7_spec [7, 9, 2, 2]).1 2 (by decide) (by decide)
    (by decide) (by decide)
  simpa using h

/-- Two-step list induction matching the recursion of `bytesFromHex`. -/
theorem twoStepList {p : List Nat → Prop} (h0 : p []) (h1 : ∀ a, p [a])
    (h2 : ∀ a b l, p l → p (a :: b :: l)) : ∀ l, p l
  | [] => h0
  | [a] => h1 a
  | a :: b :: l => h2 a b l (twoStepList h0 h1 h2 l)

/-- A code point with a hex value lies in one of the three hex-digit
ranges. -/
theorem hexVal_range {c : Nat} (h : (hexVal c).isSome) :
    (48 ≤ c ∧ c ≤ 57) ∨ (97 ≤ c ∧ c ≤ 102) ∨ (65 ≤ c ∧ c ≤ 70) := by
  unfold hexVal at h
  split at h
  · left; assumption
  · split at h
    · right; left; assumption
    · split at h
      · right; right; assumption
      · simp at h

/-- No hex digit lowercases to `x`. -/
theorem toLowerCode_ne_x {c : Nat} (h : (hexVal c).isSome) :
    toLowerCode c ≠ 120 := by
  rcases hexVal_range h with h | h | h <;> unfold toLowerCode <;> split <;> omega

/-- `bytesFromHex` succeeds on an even-length string of hex digits and
returns half as many bytes. -/
theorem bytesFromHex_total :
    ∀ s : Str, (∀ c ∈ s, (hexVal c).isSome) → s.length % 2 = 0 →
      ∃ l, bytesFromHex s = some l ∧ l.length = s.length / 2 := by
  refine twoStepList ?_ ?_ ?_
  · intro _ _
    exact ⟨[], rfl, rfl⟩
  · intro a _ hlen
    simp at hlen
  · intro a b l ih hmem hlen
    have ha : (hexVal a).isSome := hmem a (by simp)
    have hb : (hexVal b).isSome := hmem b (by simp)
    obtain ⟨va, hva⟩ := Option.isSome_iff_exists.mp ha
    obtain ⟨vb, hvb⟩ := Option.isSome_iff_exists.mp hb
    have hmem' : ∀ c ∈ l, (hexVal c).isSome := fun c hc => hmem c (by simp [hc])
    have hlen' : l.length % 2 = 0 := by simp at hlen; omega
    obtain ⟨bs, hbs, hbl⟩ := ih hmem' hlen'
    refine ⟨(16 * va + vb) :: bs, ?_, ?_⟩
    · unfold bytesFromHex
      rw [hva, hvb, hbs]
    · simp [hbl]
      omega

/-- `natToBytesBE k` produces `k` bytes. -/
theorem natToBytesBE_length (k : Nat) : ∀ n, (natToBytesBE k n).length = k := by
  induction k with
  | zero => intro n; rfl
  | succ k ih =>
    intro n
    unfold natToBytesBE
    simp [ih]

/-- `natToBytesBE k` is injective on values below `256 ^ k`. -/
theorem natToBytesBE_inj (k : Nat) :
    ∀ m n, m < 256 ^ k → n < 256 ^ k →
      natToBytesBE k m = natToBytesBE k n → m = n := by
  induction k with
  | zero =>
    intro m n hm hn _
    simp at hm hn
    omega
  | succ k ih =>
    intro m n hm hn h
    unfold natToBytesBE at h
    have hlen : (natToBytesBE k (m / 256)).length = (natToBytesBE k (n / 256)).length := by
      rw [natToBytesBE_length, natToBytesBE_length]
    obtain ⟨h1, h2⟩ := List.append_inj h hlen
    have hm' : m / 256 < 256 ^ k := by
      rw [Nat.div_lt_iff_lt_mul (by norm_num)]
      calc m < 256 ^ (k + 1) := hm
        _ = 256 ^ k * 256 := by ring
    have hn' : n / 256 < 256 ^ k := by
      rw [Nat.div_lt_iff_lt_mul (by norm_num)]
      calc n < 256 ^ (k + 1) := hn
        _ = 256 ^ k * 256 := by ring
    have hdiv : m / 256 = n / 256 := ih _ _ hm' hn' h1
    have hmod : m % 256 = n % 256 := by simpa using h2
    omega

/-- A 32-character hex string does not pass the `0x`-spelling check. -/
theorem startsWith0x_of_hex_false {s : Str}
    (hlen : s.length = 32) (hhex : ∀ c ∈ s, (hexVal c).isSome) :
    startsWith0x s = false := by
  match s, hlen with
  | c0 :: c1 :: rest, _ =>
    have h1 : (hexVal c1).isSome := hhex c1 (by simp)
    have := toLowerCode_ne_x h1
    simp [startsWith0x]
    intro
    omega

/-- Claim C1: in `decrypt_hls_segment`, a present 32-hex-digit `iv_hex`
decodes to the same 16 bytes with or without a `0x`/`0X` spelling (the
two spellings make the whole decryption agree); an absent `iv_hex` makes
the IV the 16-byte big-endian encoding of the sequence number, and two
distinct sequence numbers representable in 16 bytes always derive
distinct IVs. -/
theorem decrypt_iv_selection
    (cipher : Bytes → Bytes → Bytes → Bytes) (data key_bytes : Bytes)
    (s : Str) (hlen : s.length = 32) (hhex : ∀ c ∈ s, (hexVal c).isSome)
    (seq seq1 seq2 : Int)
    (h1l : 0 ≤ seq1) (h1u : seq1 < (256 : Int) ^ 16)
    (h2l : 0 ≤ seq2) (h2u : seq2 < (256 : Int) ^ 16) (hne : seq1 ≠ seq2) :
    decrypt_hls_segment cipher data key_bytes (some (48 :: 120 :: s)) seq
      = decrypt_hls_segment cipher data key_bytes (some s) seq
    ∧ decrypt_hls_segment cipher data key_bytes (some (48 :: 88 :: s)) seq
      = decrypt_hls_segment cipher data key_bytes (some s) seq
    ∧ (∃ iv, deriveIV (some s) seq = some iv ∧ iv.length = 16)
    ∧ deriveIV none seq1 = some (natToBytesBE 16 seq1.toNat)
    ∧ deriveIV none seq2 = some (natToBytesBE 16 seq2.toNat)
    ∧ deriveIV none seq1 ≠ deriveIV none seq2 := by
  have hsne : s ≠ [] := by
    intro h
    rw [h] at hlen
    simp at hlen
  have hplain : deriveIV (some s) seq = bytesFromHex s := by
    simp only [deriveIV]
    rw [if_pos hsne, startsWith0x_of_hex_false hlen hhex]
    simp
  have hlower : deriveIV (some (48 :: 120 :: s)) seq = bytesFromHex s := by
    have hsw : startsWith0x (48 :: 120 :: s) = true := by
      simp [startsWith0x, toLowerCode]
    simp only [deriveIV]
    rw [if_pos (by simp : (48 :: 120 :: s : Str) ≠ []), hsw]
    simp
  have hupper : deriveIV (some (48 :: 88 :: s)) seq = bytesFromHex s := by
    have hsw : startsWith0x (48 :: 88 :: s) = true := by
      simp [startsWith0x, toLowerCode]
    simp only [deriveIV]
    rw [if_pos (by simp : (48 :: 88 :: s : Str) ≠ []), hsw]
    simp
  have hb1 : natToBytesBE 16 seq1.toNat ≠ natToBytesBE 16 seq2.toNat := by
    intro h
    apply hne
    have hlt1 : seq1.toNat < 256 ^ 16 := by
      have : ((256 : Int) ^ 16) = ((256 ^ 16 : Nat) : Int) := by push_cast
      omega
    have hlt2 : seq2.toNat < 256 ^ 16 := by
      have : ((256 : Int) ^ 16) = ((256 ^ 16 : Nat) : Int) := by push_cast
      omega
    have := natToBytesBE_inj 16 _ _ hlt1 hlt2 h
    omega
  refine ⟨?_, ?_, ?_, ?_, ?_, ?_⟩
  · unfold decrypt_hls_segment
    rw [hlower, hplain]
  · unfold decrypt_hls_segment
    rw [hupper, hplain]
  · obtain ⟨l, hl, hll⟩ := bytesFromHex_total s hhex (by omega)
    exact ⟨l, by rw [hplain, hl], by omega⟩
  · simp only [deriveIV]
    rw [if_pos ⟨h1l, h1u⟩]
  · simp only [deriveIV]
    rw [if_pos ⟨h2l, h2u⟩]
  · simp only [deriveIV]
    rw [if_pos ⟨h1l, h1u⟩, if_pos ⟨h2l, h2u⟩]
    simp [hb1]

/-- Claim C1 witness: the concrete IV string of 32 `0` digits with and
without the `0x`/`0X` spellings, and sequence numbers 0 and 1, via the
theorem. -/
theorem decrypt_iv_selection_witness :
    decrypt_hls_segment (fun _ _ d => d) [] []
        (some (48 :: 120 :: strCodes "00000000000000000000000000000000")) 0
      = decrypt_hls_segment (fun _ _ d => d) [] []
        (some (strCodes "00000000000000000000000000000000")) 0
    ∧ decrypt_hls_segment (fun _ _ d => d) [] []
        (some (48 :: 88 :: strCodes "00000000000000000000000000000000")) 0
      = decrypt_hls_segment (fun _ _ d => d) [] []
        (some (strCodes "00000000000000000000000000000000")) 0
    ∧ (∃ iv, deriveIV (some (strCodes "00000000000000000000000000000000")) 0
        = some iv ∧ iv.length = 16)
    ∧ deriveIV none 0 = some (natToBytesBE 16 (0 : Int).toNat)
    ∧ deriveIV none 1 = some (natToBytesBE 16 (1 : Int).toNat)
    ∧ deriveIV none 0 ≠ deriveIV none 1 :=
  decrypt_iv_selection (fun _ _ d => d) [] []
    (strCodes "00000000000000000000000000000000") (by decide) (by decide)
    0 0 1 (by decide) (by decide) (by decide) (by decide) (by decide)

/-- A prefix of a list starts with the same head. -/
theorem head_of_isPrefixOf {d l : Str} {a : Nat}
    (h : d.isPrefixOf l) (hd : d.head? = some a) : l.head? = some a := by
  rw [List.isPrefixOf_iff_prefix] at h
  obtain ⟨t, ht⟩ := h
  subst ht
  match d, hd with
  | x :: xs, hd => simpa using hd

/-- Every parser step leaves the already emitted segments in place and
can only append new ones. -/
theorem processLine_segments_extend (ctx : ParseCtx) (st : PState) (line : Str) :
    ∃ t, (processLine ctx st line).segments = st.segments ++ t := by
  unfold processLine
  repeat' split
  all_goals first
    | exact ⟨_, rfl⟩
    | exact ⟨[], (List.append_nil _).symm⟩

/-- Over any remaining lines, the already emitted segments persist
unchanged as a prefix of the final segment list. -/
theorem processLines_segments_extend (ctx : ParseCtx) (st : PState) (lines : List Str) :
    ∃ t, (processLines ctx st lines).segments = st.segments ++ t := by
  induction lines generalizing st with
  | nil => exact ⟨[], by simp [processLines]⟩
  | cons l ls ih =>
    obtain ⟨t1, h1⟩ := processLine_segments_extend ctx st l
    obtain ⟨t2, h2⟩ := ih (processLine ctx st l)
    refine ⟨t1 ++ t2, ?_⟩
    simp only [processLines] at h2 ⊢
    rw [List.foldl_cons, h2, h1, List.append_assoc]

/-- A non-directive line with no truthy pending variant emits exactly
one segment carrying a copy of the current key state and
`sequence = media_sequence + len(segments)`. -/
theorem processLine_emits_segment (ctx : ParseCtx) (st : PState) (line : Str)
    (hhash : line.head? ≠ some 35) (hpend : pendingTruthy st = false) :
    processLine ctx st line = { st with segments := st.segments ++
      [⟨ctx.uj ctx.baseUrl line, st.current_key,
        st.media_sequence + (st.segments.length : Int)⟩] } := by
  have hm : mediaSeqDirective.isPrefixOf line = false := by
    by_contra h
    rw [Bool.not_eq_false] at h
    exact hhash (head_of_isPrefixOf h (by decide))
  have hs : streamInfDirective.isPrefixOf line = false := by
    by_contra h
    rw [Bool.not_eq_false] at h
    exact hhash (head_of_isPrefixOf h (by decide))
  have hk : keyDirective.isPrefixOf line = false := by
    by_contra h
    rw [Bool.not_eq_false] at h
    exact hhash (head_of_isPrefixOf h (by decide))
  simp [processLine, hm, hs, hk, hpend, hhash]

/-- Claim C3: each emitted segment's sequence number equals the
media-sequence base in effect at its line plus the number of segments
already emitted, the segment records a copy of the key state in effect
at that point, and processing any later lines (key or media-sequence
directives included) never changes the segments already emitted. -/
theorem parser_sequence_and_key_copy (ctx : ParseCtx) (st : PState)
    (lines : List Str) (line : Str)
    (hhash : line.head? ≠ some 35) (hpend : pendingTruthy st = false) :
    (∃ t, (processLines ctx st lines).segments = st.segments ++ t)
    ∧ processLine ctx st line = { st with segments := st.segments ++
        [⟨ctx.uj ctx.baseUrl line, st.current_key,
          st.media_sequence + (st.segments.length : Int)⟩] } :=
  ⟨processLines_segments_extend ctx st lines,
   processLine_emits_segment ctx st line hhash hpend⟩

/-- Claim C3 witness: a concrete segment line appended to the initial
state, and persistence over a later key directive, via the theorem. -/
theorem parser_sequence_and_key_copy_witness :
    (∃ t, (processLines ⟨fun _ r => r, fun _ => [], fun _ => initKeyState, []⟩
        initPState [strCodes "#EXT-X-KEY:METHOD=AES-128"]).segments
      = initPState.segments ++ t)
    ∧ processLine ⟨fun _ r => r, fun _ => [], fun _ => initKeyState, []⟩
        initPState (strCodes "seg1.ts")
      = { initPState with segments := initPState.segments ++
          [⟨strCodes "seg1.ts", initPState.current_key,
            initPState.media_sequence + (initPState.segments.length : Int)⟩] } :=
  parser_sequence_and_key_copy ⟨fun _ r => r, fun _ => [], fun _ => initKeyState, []⟩
    initPState [strCodes "#EXT-X-KEY:METHOD=AES-128"] (strCodes "seg1.ts")
    (by decide) (by rfl)

/-- One parser step preserves non-negativity of the media-sequence base
and of every emitted sequence number. -/
theorem processLine_nonneg (ctx : ParseCtx) (st : PState) (line : Str)
    (hms : 0 ≤ st.media_sequence)
    (hsegs : ∀ sg ∈ st.segments, 0 ≤ sg.sequence) :
    0 ≤ (processLine ctx st line).media_sequence
    ∧ ∀ sg ∈ (processLine ctx st line).segments, 0 ≤ sg.sequence := by
  unfold processLine
  split
  · split
    · exact ⟨Int.natCast_nonneg _, hsegs⟩
    · exact ⟨hms, hsegs⟩
  · split
    · exact ⟨hms, hsegs⟩
    · split
      · exact ⟨hms, hsegs⟩
      · split
        · exact ⟨hms, hsegs⟩
        · split
          · exact ⟨hms, hsegs⟩
          · refine ⟨hms, ?_⟩
            intro sg hsg
            rcases List.mem_append.mp hsg with h | h
            · exact hsegs sg h
            · simp at h
              subst h
              exact add_nonneg hms (Int.natCast_nonneg _)

/-- The whole parser fold preserves non-negativity of the base and of
every emitted sequence number. -/
theorem processLines_nonneg (ctx : ParseCtx) (lines : List Str) :
    ∀ st : PState, 0 ≤ st.media_sequence →
      (∀ sg ∈ st.segments, 0 ≤ sg.sequence) →
      0 ≤ (processLines ctx st lines).media_sequence
      ∧ ∀ sg ∈ (processLines ctx st lines).segments, 0 ≤ sg.sequence := by
  induction lines with
  | nil =>
    intro st h1 h2
    exact ⟨h1, h2⟩
  | cons l ls ih =>
    intro st h1 h2
    have h := processLine_nonneg ctx st l h1 h2
    have h' := ih (processLine ctx st l) h.1 h.2
    simpa [processLines] using h'

/-- Claim C10: a `#EXT-X-MEDIA-SEQUENCE:` line whose value is not a
string of decimal digits leaves the parser state unchanged (the previous
base is kept, nothing is raised); and starting from a non-negative base
with non-negative emitted sequence numbers — as the default base 0
does — every emitted segment's sequence number stays non-negative. -/
theorem mediaseq_nondigit_and_nonneg (ctx : ParseCtx) (st : PState)
    (line : Str) (lines : List Str)
    (hpre : mediaSeqDirective.isPrefixOf line = true)
    (hnd : pyIsDigits (line.drop mediaSeqDirective.length) = false) :
    processLine ctx st line = st
    ∧ (0 ≤ st.media_sequence → (∀ sg ∈ st.segments, 0 ≤ sg.sequence) →
        0 ≤ (processLines ctx st lines).media_sequence
        ∧ ∀ sg ∈ (processLines ctx st lines).segments, 0 ≤ sg.sequence) := by
  constructor
  · simp [processLine, hpre, hnd]
  · intro h1 h2
    exact processLines_nonneg ctx lines st h1 h2

/-- Claim C10 witness: the concrete directive value `-3` is ignored and
the following segment gets the non-negative sequence number 0, via the
theorem. -/
theorem mediaseq_nondigit_and_nonneg_witness :
    processLine ⟨fun _ r => r, fun _ => [], fun _ => initKeyState, []⟩
      initPState (strCodes "#EXT-X-MEDIA-SEQUENCE:-3") = initPState
    ∧ (0 ≤ initPState.media_sequence →
        (∀ sg ∈ initPState.segments, 0 ≤ sg.sequence) →
        0 ≤ (processLines ⟨fun _ r => r, fun _ => [], fun _ => initKeyState, []⟩
            initPState [strCodes "a.ts"]).media_sequence
        ∧ ∀ sg ∈ (processLines ⟨fun _ r => r, fun _ => [], fun _ => initKeyState, []⟩
            initPState [strCodes "a.ts"]).segments, 0 ≤ sg.sequence) :=
  mediaseq_nondigit_and_nonneg ⟨fun _ r => r, fun _ => [], fun _ => initKeyState, []⟩
    initPState (strCodes "#EXT-X-MEDIA-SEQUENCE:-3") [strCodes "a.ts"]
    (by decide) (by decide)

/-- Inserting into the sorted variant list never yields an empty list. -/
theorem insertDescByBw_ne_nil (v : Variant) (l : List Variant) :
    insertDescByBw v l ≠ [] := by
  cases l with
  | nil => simp [insertDescByBw]
  | cons w ws =>
    simp only [insertDescByBw]
    split <;> simp

/-- The head of the stable descending sort is the first variant of
maximal bandwidth: it is a member, no bandwidth exceeds it, and every
variant before it in the original order has strictly smaller
bandwidth. -/
theorem selectVariant_first_max (vs : List Variant) :
    ∀ v, selectVariant vs = some v →
      v ∈ vs ∧ (∀ w ∈ vs, w.bandwidth ≤ v.bandwidth)
      ∧ ∃ pre suf, vs = pre ++ v :: suf ∧ ∀ w ∈ pre, w.bandwidth < v.bandwidth := by
  induction vs with
  | nil =>
    intro v h
    simp [selectVariant, sortVariantsDesc] at h
  | cons a vs ih =>
    intro v h
    simp only [selectVariant, sortVariantsDesc] at h
    cases hs : sortVariantsDesc vs with
    | nil =>
      have hvs : vs = [] := by
        cases vs with
        | nil => rfl
        | cons b bs =>
          exact absurd hs (insertDescByBw_ne_nil b (sortVariantsDesc bs))
      rw [hs] at h
      simp [insertDescByBw] at h
      subst h
      subst hvs
      exact ⟨by simp, by simp, [], [], by simp, by simp⟩
    | cons w ws =>
      rw [hs] at h
      have hw := ih w (by simp [selectVariant, hs])
      obtain ⟨hmem, hbound, pre, suf, hdec, hpre⟩ := hw
      simp only [insertDescByBw] at h
      by_cases hgt : w.bandwidth > a.bandwidth
      · rw [if_pos hgt] at h
        simp at h
        subst h
        refine ⟨by simp [hmem], ?_, a :: pre, suf, by simp [hdec], ?_⟩
        · intro u hu
          rcases List.mem_cons.mp hu with rfl | hu
          · omega
          · exact hbound u hu
        · intro u hu
          rcases List.mem_cons.mp hu with rfl | hu
          · exact hgt
          · exact hpre u hu
      · rw [if_neg hgt] at h
        simp at h
        subst h
        refine ⟨by simp, ?_, [], vs, by simp, by simp⟩
        intro u hu
        rcases List.mem_cons.mp hu with rfl | hu
        · exact le_refl _
        · have := hbound u hu
          omega

/-- Claim C4: with at least one variant, the selection step picks the
variant of maximal bandwidth, and among equal maxima the one appearing
first in the document; in particular for bandwidths
`[500, 1200, 1200, 300]` the first 1200-bandwidth variant is chosen. -/
theorem variant_selection_max_first (vs : List Variant) (v : Variant)
    (h : selectVariant vs = some v) :
    v ∈ vs ∧ (∀ w ∈ vs, w.bandwidth ≤ v.bandwidth)
    ∧ (∃ pre suf, vs = pre ++ v :: suf ∧ ∀ w ∈ pre, w.bandwidth < v.bandwidth)
    ∧ selectVariant [⟨[49], 500⟩, ⟨[50], 1200⟩, ⟨[51], 1200⟩, ⟨[52], 300⟩]
        = some ⟨[50], 1200⟩ := by
  obtain ⟨h1, h2, h3⟩ := selectVariant_first_max vs v h
  exact ⟨h1, h2, h3, by decide⟩

/-- Claim C4 witness: a rearranged variant list with bandwidths
`[300, 1200, 1200, 500]` selects its first 1200-bandwidth variant, via
the theorem. -/
theorem variant_selection_max_first_witness :
    (⟨[51], 1200⟩ : Variant) ∈
        [⟨[52], 300⟩, ⟨[51], 1200⟩, ⟨[50], 1200⟩, ⟨[49], 500⟩]
    ∧ (∀ w ∈ ([⟨[52], 300⟩, ⟨[51], 1200⟩, ⟨[50], 1200⟩, ⟨[49], 500⟩] :
          List Variant), w.bandwidth ≤ 1200)
    ∧ (∃ pre suf, ([⟨[52], 300⟩, ⟨[51], 1200⟩, ⟨[50], 1200⟩, ⟨[49], 500⟩] :
          List Variant) = pre ++ ⟨[51], 1200⟩ :: suf
        ∧ ∀ w ∈ pre, w.bandwidth < 1200)
    ∧ selectVariant [⟨[49], 500⟩, ⟨[50], 1200⟩, ⟨[51], 1200⟩, ⟨[52], 300⟩]
        = some ⟨[50], 1200⟩ :=
  variant_selection_max_first
    [⟨[52], 300⟩, ⟨[51], 1200⟩, ⟨[50], 1200⟩, ⟨[49], 500⟩]
    ⟨[51], 1200⟩ (by decide)

/-- Lexicographic tuple comparison is transitive. -/
theorem lexGt_trans {a b c : Int × Int} (h1 : lexGt a b) (h2 : lexGt b c) :
    lexGt a c := by
  simp only [lexGt] at *
  omega

/-- Lexicographic tuple comparison is asymmetric. -/
theorem lexGt_asymm {a b : Int × Int} (h : lexGt a b) : ¬ lexGt b a := by
  simp only [lexGt] at *
  omega

/-- Lexicographic tuple comparison is irreflexive. -/
theorem lexGt_irrefl (a : Int × Int) : ¬ lexGt a a := by
  simp only [lexGt]
  omega

/-- Totality consequence: what beats the threshold beats everything the
threshold is not beaten by. -/
theorem lexGt_of_ge_threshold {x y t : Int × Int}
    (hx : lexGt x t) (hy : ¬ lexGt y t) : lexGt x y := by
  simp only [lexGt] at *
  omega

/-- Characterisation of the strict-improvement argmax loop: the result
is either the initial best (nothing in the list beat the threshold) or
the first list element attaining the maximum above the threshold, with
everything before it strictly below it and nothing after it above it. -/
theorem pickBestGo_spec (artist title : Str) :
    ∀ (l : List Item) (t : Int × Int) (best : Option Item) (it : Item),
      pickBestGo artist title l t best = some it →
      (best = some it ∧ ∀ j ∈ l, ¬ lexGt (rankOf artist title j) t)
      ∨ (∃ pre suf, l = pre ++ it :: suf
          ∧ lexGt (rankOf artist title it) t
          ∧ (∀ j ∈ pre, lexGt (rankOf artist title it) (rankOf artist title j))
          ∧ (∀ j ∈ suf, ¬ lexGt (rankOf artist title j) (rankOf artist title it))) := by
  intro l
  induction l with
  | nil =>
    intro t best it h
    left
    exact ⟨h, by simp⟩
  | cons a l ih =>
    intro t best it h
    simp only [pickBestGo] at h
    by_cases hbeat : lexGt (rankOf artist title a) t
    · rw [if_pos hbeat] at h
      rcases ih (rankOf artist title a) (some a) it h with
        ⟨heq, hall⟩ | ⟨pre, suf, hdec, hgt, hpre, hsuf⟩
      · injection heq with heq
        subst heq
        right
        exact ⟨[], l, by simp, hbeat, by simp, hall⟩
      · right
        refine ⟨a :: pre, suf, by rw [hdec]; simp, lexGt_trans hgt hbeat, ?_, hsuf⟩
        intro j hj
        rcases List.mem_cons.mp hj with rfl | hj
        · exact hgt
        · exact hpre j hj
    · rw [if_neg hbeat] at h
      rcases ih t best it h with
        ⟨heq, hall⟩ | ⟨pre, suf, hdec, hgt, hpre, hsuf⟩
      · left
        refine ⟨heq, ?_⟩
        intro j hj
        rcases List.mem_cons.mp hj with rfl | hj
        · exact hbeat
        · exact hall j hj
      · right
        refine ⟨a :: pre, suf, by rw [hdec]; simp, hgt, ?_, hsuf⟩
        intro j hj
        rcases List.mem_cons.mp hj with rfl | hj
        · exact lexGt_of_ge_threshold hgt hbeat
        · exact hpre j hj

/-- Claim C5: the iTunes matcher selects the dictionary candidate
maximising the rank tuple (title-exact, artist-substring) under
lexicographic order with the first-seen candidate winning ties; in
particular a rank-(1,0) candidate beats a rank-(0,1) candidate in either
presentation order. -/
theorem itunes_ranking (artist title : Str) (results : List JItem)
    (it it1 it2 : Item)
    (h : itunes_pick artist title results = some it)
    (h1 : rankOf artist title it1 = (1, 0))
    (h2 : rankOf artist title it2 = (0, 1)) :
    (∃ pre suf, results.filterMap id = pre ++ it :: suf
      ∧ (∀ j ∈ pre, lexGt (rankOf artist title it) (rankOf artist title j))
      ∧ (∀ j ∈ suf, ¬ lexGt (rankOf artist title j) (rankOf artist title it)))
    ∧ (∀ j ∈ results.filterMap id,
        ¬ lexGt (rankOf artist title j) (rankOf artist title it))
    ∧ itunes_pick artist title [some it1, some it2] = some it1
    ∧ itunes_pick artist title [some it2, some it1] = some it1 := by
  have hA : lexGt ((1 : Int), (0 : Int)) (-1, -1) := Or.inl (by norm_num)
  have hC : lexGt ((0 : Int), (1 : Int)) (-1, -1) := Or.inl (by norm_num)
  have hB : ¬ lexGt ((0 : Int), (1 : Int)) (1, 0) := by
    simp only [lexGt]
    omega
  have hD : lexGt ((1 : Int), (0 : Int)) (0, 1) := Or.inl (by norm_num)
  have hmain := pickBestGo_spec artist title (results.filterMap id) (-1, -1) none it h
  rcases hmain with ⟨heq, _⟩ | ⟨pre, suf, hdec, _, hpre, hsuf⟩
  · simp at heq
  · refine ⟨⟨pre, suf, hdec, hpre, hsuf⟩, ?_, ?_, ?_⟩
    · intro j hj
      rw [hdec] at hj
      rcases List.mem_append.mp hj with hj | hj
      · exact lexGt_asymm (hpre j hj)
      · rcases List.mem_cons.mp hj with rfl | hj
        · exact lexGt_irrefl _
        · exact hsuf j hj
    · show pickBestGo artist title [it1, it2] (-1, -1) none = some it1
      simp only [pickBestGo, h1, h2]
      rw [if_pos hA, if_neg hB]
    · show pickBestGo artist title [it2, it1] (-1, -1) none = some it1
      simp only [pickBestGo, h1, h2]
      rw [if_pos hC, if_pos hD]

/-- Claim C5 witness: for the query (The Beatles, Let It Be), the
exact-title/no-artist-overlap candidate (rank (1,0)) is selected over
the inexact-title/full-artist candidate (rank (0,1)) even when listed
second, via the theorem. -/
theorem itunes_ranking_witness :
    (∃ pre suf,
      ([some ⟨some (strCodes "Let It Be Remastered"), some (strCodes "The Beatles"),
          none, none, none, false⟩,
        some ⟨some (strCodes "Let It Be"), some (strCodes "Zzq"),
          none, none, none, false⟩] : List JItem).filterMap id
        = pre ++ (⟨some (strCodes "Let It Be"), some (strCodes "Zzq"),
            none, none, none, false⟩ : Item) :: suf
      ∧ (∀ j ∈ pre,
          lexGt (rankOf (strCodes "The Beatles") (strCodes "Let It Be")
              ⟨some (strCodes "Let It Be"), some (strCodes "Zzq"), none, none, none, false⟩)
            (rankOf (strCodes "The Beatles") (strCodes "Let It Be") j))
      ∧ (∀ j ∈ suf,
          ¬ lexGt (rankOf (strCodes "The Beatles") (strCodes "Let It Be") j)
            (rankOf (strCodes "The Beatles") (strCodes "Let It Be")
              ⟨some (strCodes "Let It Be"), some (strCodes "Zzq"), none, none, none, false⟩)))
    ∧ (∀ j ∈ ([some ⟨some (strCodes "Let It Be Remastered"), some (strCodes "The Beatles"),
          none, none, none, false⟩,
        some ⟨some (strCodes "Let It Be"), some (strCodes "Zzq"),
          none, none, none, false⟩] : List JItem).filterMap id,
        ¬ lexGt (rankOf (strCodes "The Beatles") (strCodes "Let It Be") j)
          (rankOf (strCodes "The Beatles") (strCodes "Let It Be")
            ⟨some (strCodes "Let It Be"), some (strCodes "Zzq"), none, none, none, false⟩))
    ∧ itunes_pick (strCodes "The Beatles") (strCodes "Let It Be")
        [some ⟨some (strCodes "Let It Be"), some (strCodes "Zzq"), none, none, none, false⟩,
         some ⟨some (strCodes "Let It Be Remastered"), some (strCodes "The Beatles"),
           none, none, none, false⟩]
        = some ⟨some (strCodes "Let It Be"), some (strCodes "Zzq"), none, none, none, false⟩
    ∧ itunes_pick (strCodes "The Beatles") (strCodes "Let It Be")
        [some ⟨some (strCodes "Let It Be Remastered"), some (strCodes "The Beatles"),
           none, none, none, false⟩,
         some ⟨some (strCodes "Let It Be"), some (strCodes "Zzq"), none, none, none, false⟩]
        = some ⟨some (strCodes "Let It Be"), some (strCodes "Zzq"), none, none, none, false⟩ :=
  itunes_ranking (strCodes "The Beatles") (strCodes "Let It Be")
    [some ⟨some (strCodes "Let It Be Remastered"), some (strCodes "The Beatles"),
       none, none, none, false⟩,
     some ⟨some (strCodes "Let It Be"), some (strCodes "Zzq"), none, none, none, false⟩]
    ⟨some (strCodes "Let It Be"), some (strCodes "Zzq"), none, none, none, false⟩
    ⟨some (strCodes "Let It Be"), some (strCodes "Zzq"), none, none, none, false⟩
    ⟨some (strCodes "Let It Be Remastered"), some (strCodes "The Beatles"),
       none, none, none, false⟩
    (by decide) (by decide) (by decide)

/-- A list whose head does not satisfy `p` is unchanged by `dropWhile p`. -/
theorem dropWhile_eq_self_of_head {p : Nat → Bool} {l : List Nat}
    (h : ∀ a, l.head? = some a → p a = false) : l.dropWhile p = l := by
  cases l with
  | nil => rfl
  | cons a t =>
    have := h a rfl
    simp [List.dropWhile_cons, this]

/-- The head of a `dropWhile p` result never satisfies `p`. -/
theorem head?_dropWhile_false (p : Nat → Bool) (l : List Nat) :
    ∀ a, (l.dropWhile p).head? = some a → p a = false := by
  induction l with
  | nil =>
    intro a h
    simp at h
  | cons b t ih =>
    intro a h
    by_cases hb : p b = true
    · rw [List.dropWhile_cons_of_pos hb] at h
      exact ih a h
    · rw [List.dropWhile_cons_of_neg hb] at h
      simp at h
      obtain ⟨rfl, -⟩ := h
      simpa using hb

/-- `dropWhile` is idempotent. -/
theorem dropWhile_dropWhile (p : Nat → Bool) (l : List Nat) :
    (l.dropWhile p).dropWhile p = l.dropWhile p := by
  apply dropWhile_eq_self_of_head
  intro a ha
  exact head?_dropWhile_false p l a ha

/-- Stripping whitespace is idempotent. -/
theorem stripWs_idem (s : Str) : stripWs (stripWs s) = stripWs s := by
  have houter : List.dropWhile isSpaceCode
      (((s.dropWhile isSpaceCode).reverse.dropWhile isSpaceCode).reverse)
      = ((s.dropWhile isSpaceCode).reverse.dropWhile isSpaceCode).reverse := by
    apply dropWhile_eq_self_of_head
    intro a ha
    have ht : ((s.dropWhile isSpaceCode).reverse.takeWhile isSpaceCode)
        ++ ((s.dropWhile isSpaceCode).reverse.dropWhile isSpaceCode)
        = (s.dropWhile isSpaceCode).reverse :=
      List.takeWhile_append_dropWhile _ _
    have hpre := congrArg List.reverse ht
    simp only [List.reverse_append, List.reverse_reverse] at hpre
    cases hrev : ((s.dropWhile isSpaceCode).reverse.dropWhile isSpaceCode).reverse with
    | nil =>
      rw [hrev] at ha
      simp at ha
    | cons x xs =>
      rw [hrev] at ha hpre
      have hx : x = a := by simpa using ha
      subst hx
      have hhead : (s.dropWhile isSpaceCode).head? = some x := by
        rw [← hpre]
        simp
      exact head?_dropWhile_false isSpaceCode s x hhead
  unfold stripWs
  rw [houter, List.reverse_reverse,
    dropWhile_dropWhile isSpaceCode ((s.dropWhile isSpaceCode).reverse)]

/-- A field produced by `build_metadata` is present only as a non-empty
trimmed string. -/
theorem strip_field_ok (x : Str) :
    ∀ s, (if stripWs x ≠ [] then some (stripWs x) else none) = some s →
      s ≠ [] ∧ stripWs s = s := by
  intro s h
  split at h
  · injection h with h
    subst h
    exact ⟨by assumption, stripWs_idem x⟩
  · simp at h

/-- `x or default` yields the default exactly when the optional value is
absent or empty. -/
theorem pyOr_empty (o : Option Str) (d : Str) (h : pyOr o [] = []) :
    pyOr o d = d := by
  cases o with
  | none => rfl
  | some s =>
    simp only [pyOr] at h ⊢
    by_cases hs : s = []
    · simp [hs]
    · rw [if_pos hs] at h
      exact absurd h hs

/-- `x or default` ignores the default when the optional value is
non-empty. -/
theorem pyOr_nonempty (o : Option Str) (d : Str) (h : pyOr o [] ≠ []) :
    pyOr o d = pyOr o [] := by
  cases o with
  | none => exact absurd rfl h
  | some s =>
    simp only [pyOr] at h ⊢
    by_cases hs : s = []
    · simp [hs] at h
    · rw [if_pos hs, if_pos hs]

/-- Claim C6 (amended): for a query whose artist and title are non-blank
after trimming, every metadata mapping the iTunes matcher returns maps
each present key to a non-empty trimmed string (blank-after-trim values
are omitted), and the title and artist keys fall back to the original
query values — and are then present — whenever the catalog field is
absent or empty; either key can be absent only when the catalog supplied
a non-empty whitespace-only value for it (the unamended "always
present" fails exactly there). -/
theorem itunes_metadata_invariant (artist title : Str)
    (ha : stripWs artist ≠ []) (ht : stripWs title ≠ [])
    (rf : Option (List JItem)) (md : Metadata)
    (h : itunes_lookup artist title rf = some md) :
    (∀ s, md.title = some s → s ≠ [] ∧ stripWs s = s)
    ∧ (∀ s, md.artist = some s → s ≠ [] ∧ stripWs s = s)
    ∧ (∀ s, md.album = some s → s ≠ [] ∧ stripWs s = s)
    ∧ (∀ s, md.date = some s → s ≠ [] ∧ stripWs s = s)
    ∧ (∀ s, md.genre = some s → s ≠ [] ∧ stripWs s = s)
    ∧ ∃ it, itunes_pick artist title (rf.getD []) = some it
        ∧ (pyOr it.trackName [] = [] → md.title = some (stripWs title))
        ∧ (pyOr it.artistName [] = [] → md.artist = some (stripWs artist))
        ∧ (md.title = none →
            stripWs (pyOr it.trackName []) = [] ∧ pyOr it.trackName [] ≠ [])
        ∧ (md.artist = none →
            stripWs (pyOr it.artistName []) = [] ∧ pyOr it.artistName [] ≠ []) := by
  cases rf with
  | none => simp [itunes_lookup] at h
  | some results =>
    simp only [itunes_lookup] at h
    split at h
    · simp at h
    · split at h
      · simp at h
      next it hpick =>
        split at h
        · simp at h
        next hemp =>
          injection h with h
          subst h
          refine ⟨strip_field_ok _, strip_field_ok _, strip_field_ok _,
            strip_field_ok _, strip_field_ok _, it, hpick, ?_, ?_, ?_, ?_⟩
          · intro htrack
            show (if stripWs (pyOr it.trackName title) ≠ []
                then some (stripWs (pyOr it.trackName title)) else none)
              = some (stripWs title)
            rw [pyOr_empty it.trackName title htrack, if_pos ht]
          · intro hart
            show (if stripWs (pyOr it.artistName artist) ≠ []
                then some (stripWs (pyOr it.artistName artist)) else none)
              = some (stripWs artist)
            rw [pyOr_empty it.artistName artist hart, if_pos ha]
          · intro hnone
            have hnone' : (if stripWs (pyOr it.trackName title) ≠ []
                then some (stripWs (pyOr it.trackName title)) else none)
                = (none : Option Str) := hnone
            split at hnone'
            · simp at hnone'
            next hcond =>
              have hstrip : stripWs (pyOr it.trackName title) = [] := by
                by_contra hc
                exact hcond hc
              by_cases hne : pyOr it.trackName [] = []
              · rw [pyOr_empty it.trackName title hne] at hstrip
                exact absurd hstrip ht
              · rw [pyOr_nonempty it.trackName title hne] at hstrip
                exact ⟨hstrip, hne⟩
          · intro hnone
            have hnone' : (if stripWs (pyOr it.artistName artist) ≠ []
                then some (stripWs (pyOr it.artistName artist)) else none)
                = (none : Option Str) := hnone
            split at hnone'
            · simp at hnone'
            next hcond =>
              have hstrip : stripWs (pyOr it.artistName artist) = [] := by
                by_contra hc
                exact hcond hc
              by_cases hne : pyOr it.artistName [] = []
              · rw [pyOr_empty it.artistName artist hne] at hstrip
                exact absurd hstrip ha
              · rw [pyOr_nonempty it.artistName artist hne] at hstrip
                exact ⟨hstrip, hne⟩

/-- Claim C6 counterexample: with the non-blank query
(artist `a`, title `b`) and a single catalog candidate whose `trackName`
is a lone space (truthy, so no fallback, but blank after trimming), the
returned metadata omits the `title` key entirely — refuting that the
title key is always present. -/
theorem itunes_metadata_title_missing :
    stripWs (strCodes "a") ≠ [] ∧ stripWs (strCodes "b") ≠ []
    ∧ itunes_lookup (strCodes "a") (strCodes "b")
        (some [some ⟨some [32], none, none, none, none, false⟩])
      = some ⟨none, some (strCodes "a"), none, none, none⟩ := by
  decide

/-- Claim C6 (amended) witness: a concrete candidate with absent
`trackName`, padded `artistName` and a genre shows the fallback title,
trimmed artist and omitted blank fields, via the theorem. -/
theorem itunes_metadata_invariant_witness :
    (∀ s, (some (strCodes "b") : Option Str) = some s → s ≠ [] ∧ stripWs s = s)
    ∧ (∀ s, (some (strCodes "Art") : Option Str) = some s → s ≠ [] ∧ stripWs s = s)
    ∧ (∀ s, (none : Option Str) = some s → s ≠ [] ∧ stripWs s = s)
    ∧ (∀ s, (none : Option Str) = some s → s ≠ [] ∧ stripWs s = s)
    ∧ (∀ s, (some [71] : Option Str) = some s → s ≠ [] ∧ stripWs s = s)
    ∧ ∃ it, itunes_pick (strCodes "a") (strCodes "b")
          ((some [(some ⟨none, some (strCodes " Art "), none, none, some [71], false⟩ : JItem)]).getD [])
          = some it
        ∧ (pyOr it.trackName [] = [] →
            (some (strCodes "b") : Option Str) = some (stripWs (strCodes "b")))
        ∧ (pyOr it.artistName [] = [] →
            (some (strCodes "Art") : Option Str) = some (stripWs (strCodes "a")))
        ∧ ((some (strCodes "b") : Option Str) = none →
            stripWs (pyOr it.trackName []) = [] ∧ pyOr it.trackName [] ≠ [])
        ∧ ((some (strCodes "Art") : Option Str) = none →
            stripWs (pyOr it.artistName []) = [] ∧ pyOr it.artistName [] ≠ []) :=
  itunes_metadata_invariant (strCodes "a") (strCodes "b") (by decide) (by decide)
    (some [some ⟨none, some (strCodes " Art "), none, none, some [71], false⟩])
    ⟨some (strCodes "b"), some (strCodes "Art"), none, none, some [71]⟩ (by decide)

/-- Recording a failure never removes a source from the disabled set. -/
theorem recordFailure_disabled_mono {st : EnrState} {s : Str} (s' : Str)
    (h : s ∈ st.disabled) : s ∈ (recordFailure st s').disabled := by
  simp only [recordFailure]
  split
  · exact List.mem_cons_of_mem _ h
  · exact h

/-- The retry loop of `request_json` never removes a source from the
disabled set. -/
theorem rjGo_disabled_mono (s' : Str) (att : Nat → AttemptRes) {s : Str} :
    ∀ (fuel a : Nat) (st : EnrState), s ∈ st.disabled →
      s ∈ (rjGo s' att a fuel st).1.disabled := by
  intro fuel
  induction fuel with
  | zero =>
    intro a st h
    exact h
  | succ fuel ih =>
    intro a st h
    cases hatt : att a with
    | exc =>
      simp only [rjGo, hatt]
      split
      · exact ih (a + 1) st h
      · exact recordFailure_disabled_mono s' h
    | status c =>
      simp only [rjGo, hatt]
      split
      · exact ih (a + 1) st h
      · split
        · split
          · exact ih (a + 1) st h
          · exact recordFailure_disabled_mono s' h
        · exact h

/-- The provider loop of `lookup` never removes a source from the
disabled set, and it never queries a disabled source. -/
theorem lookupRun_disabled (oc : Str → Outcome) {s : Str} :
    ∀ (order : List Str) (st : EnrState), s ∈ st.disabled →
      s ∈ (lookupRun oc st order).finalState.disabled
      ∧ s ∉ (lookupRun oc st order).queried := by
  intro order
  induction order with
  | nil =>
    intro st h
    exact ⟨h, by simp [lookupRun]⟩
  | cons s0 rest ih =>
    intro st h
    by_cases h0 : s0 ∈ st.disabled
    · simp only [lookupRun]
      rw [if_pos h0]
      exact ih st h
    · have hss0 : s ≠ s0 := fun heq => h0 (heq ▸ h)
      cases hoc : oc s0 with
      | netFail =>
        simp only [lookupRun, hoc]
        rw [if_neg h0]
        obtain ⟨h1, h2⟩ := ih (recordFailure st s0) (recordFailure_disabled_mono s0 h)
        refine ⟨h1, ?_⟩
        intro hmem
        rcases List.mem_cons.mp hmem with heq | hmem
        · exact hss0 heq
        · exact h2 hmem
      | ok m =>
        by_cases htr : mdTruthy m = true
        · simp only [lookupRun, hoc]
          rw [if_neg h0, if_pos htr]
          refine ⟨h, ?_⟩
          intro hmem
          rcases List.mem_cons.mp hmem with heq | hmem
          · exact hss0 heq
          · simp at hmem
        · simp only [lookupRun, hoc]
          rw [if_neg h0, if_neg htr]
          obtain ⟨h1, h2⟩ := ih st h
          refine ⟨h1, ?_⟩
          intro hmem
          rcases List.mem_cons.mp hmem with heq | hmem
          · exact hss0 heq
          · exact h2 hmem

/-- Claim C8: reaching 3 consecutive failures disables the source; no
later `request_json` retry run, failure record, counter reset or
`lookup` pass ever removes a disabled source, and a `lookup` pass never
queries it (no request is issued to it). -/
theorem disabled_is_one_way (st : EnrState) (s s' : Str)
    (att : Nat → AttemptRes) (oc : Str → Outcome) (order : List Str)
    (hdis : s ∈ st.disabled) :
    (recordFailure st s).failures s = st.failures s + 1
    ∧ (3 ≤ st.failures s + 1 → s ∈ (recordFailure st s).disabled)
    ∧ s ∈ (recordFailure st s').disabled
    ∧ s ∈ (resetFailures st s').disabled
    ∧ s ∈ (request_json st s' att).1.disabled
    ∧ s ∈ (lookupRun oc st order).finalState.disabled
    ∧ s ∉ (lookupRun oc st order).queried := by
  obtain ⟨hfin, hq⟩ := lookupRun_disabled oc order st hdis
  refine ⟨by simp [recordFailure], ?_, recordFailure_disabled_mono s' hdis,
    hdis, rjGo_disabled_mono s' att 4 1 st hdis, hfin, hq⟩
  intro h3
  simp only [recordFailure]
  rw [if_pos h3]
  exact List.mem_cons_self _ _

/-- Claim C8 witness: a source disabled after three failures stays
disabled through a failure record, a reset, a retry run and a lookup
pass, which does not query it, via the theorem. -/
theorem disabled_is_one_way_witness :
    (recordFailure ⟨fun _ => 0, [strCodes "itunes"]⟩ (strCodes "itunes")).failures
        (strCodes "itunes")
      = (⟨fun _ => 0, [strCodes "itunes"]⟩ : EnrState).failures (strCodes "itunes") + 1
    ∧ (3 ≤ (⟨fun _ => 0, [strCodes "itunes"]⟩ : EnrState).failures (strCodes "itunes") + 1 →
        strCodes "itunes" ∈
          (recordFailure ⟨fun _ => 0, [strCodes "itunes"]⟩ (strCodes "itunes")).disabled)
    ∧ strCodes "itunes" ∈
        (recordFailure ⟨fun _ => 0, [strCodes "itunes"]⟩ (strCodes "deezer")).disabled
    ∧ strCodes "itunes" ∈
        (resetFailures ⟨fun _ => 0, [strCodes "itunes"]⟩ (strCodes "deezer")).disabled
    ∧ strCodes "itunes" ∈
        (request_json ⟨fun _ => 0, [strCodes "itunes"]⟩ (strCodes "deezer")
          (fun _ => .exc)).1.disabled
    ∧ strCodes "itunes" ∈
        (lookupRun (fun _ => .ok none) ⟨fun _ => 0, [strCodes "itunes"]⟩
          [strCodes "itunes", strCodes "deezer"]).finalState.disabled
    ∧ strCodes "itunes" ∉
        (lookupRun (fun _ => .ok none) ⟨fun _ => 0, [strCodes "itunes"]⟩
          [strCodes "itunes", strCodes "deezer"]).queried :=
  disabled_is_one_way ⟨fun _ => 0, [strCodes "itunes"]⟩ (strCodes "itunes")
    (strCodes "deezer") (fun _ => .exc) (fun _ => .ok none)
    [strCodes "itunes", strCodes "deezer"] (by simp)

/-- A retry run that ends in a successful response leaves the health
state exactly as it was. -/
theorem rjGo_ok_state (s : Str) (att : Nat → AttemptRes) (c : Nat) :
    ∀ (fuel a : Nat) (st : EnrState), (rjGo s att a fuel st).2 = .ok c →
      (rjGo s att a fuel st).1 = st := by
  intro fuel
  induction fuel with
  | zero =>
    intro a st h
    simp [rjGo] at h
  | succ fuel ih =>
    intro a st h
    cases hatt : att a with
    | exc =>
      simp only [rjGo, hatt] at h ⊢
      split at h
      · next hlt =>
          rw [if_pos hlt]
          exact ih (a + 1) st h
      · simp at h
    | status c' =>
      simp only [rjGo, hatt] at h ⊢
      split at h
      · next hlt =>
          rw [if_pos hlt]
          exact ih (a + 1) st h
      · next hlt =>
          rw [if_neg hlt]
          split at h
          · next h400 =>
              rw [if_pos h400]
              split at h
              · next hlt4 =>
                  rw [if_pos hlt4]
                  exact ih (a + 1) st h
              · simp at h
          · next h400 =>
              rw [if_neg h400]

/-- Claim C9 (amended): a provider call whose HTTP request completes
successfully leaves the failure counters untouched; the counter of a
source is reset to zero (only) by a `lookup` pass in which that source
returns a truthy metadata mapping, which is then the result. -/
theorem request_success_keeps_counter (st : EnrState) (s : Str)
    (att : Nat → AttemptRes) (c : Nat) (oc : Str → Outcome)
    (rest : List Str) (m : Option Metadata)
    (hok : (request_json st s att).2 = .ok c)
    (hnd : s ∉ st.disabled) (hoc : oc s = .ok m) (htr : mdTruthy m = true) :
    (request_json st s att).1 = st
    ∧ (lookupRun oc st (s :: rest)).finalState.failures s = 0
    ∧ (lookupRun oc st (s :: rest)).found = m := by
  have hrun : lookupRun oc st (s :: rest) = ⟨resetFailures st s, [s], m⟩ := by
    simp only [lookupRun, hoc]
    rw [if_neg hnd, if_pos htr]
  refine ⟨rjGo_ok_state s att c 4 1 st hok, ?_, ?_⟩
  · rw [hrun]
    simp [resetFailures]
  · rw [hrun]

/-- Claim C9 counterexample: after two exhausted-retry failures the
counter for the source is 2; a following call whose HTTP request
completes successfully (status 200) still leaves the counter at 2, not
0 — refuting that a successful response resets the counter. -/
theorem request_success_no_reset :
    (request_json
        (request_json (request_json initEnrState (strCodes "itunes") (fun _ => .exc)).1
          (strCodes "itunes") (fun _ => .exc)).1
        (strCodes "itunes") (fun _ => .status 200)).2 = .ok 200
    ∧ (request_json
        (request_json (request_json initEnrState (strCodes "itunes") (fun _ => .exc)).1
          (strCodes "itunes") (fun _ => .exc)).1
        (strCodes "itunes") (fun _ => .status 200)).1.failures (strCodes "itunes") = 2 := by
  constructor <;> rfl

/-- Claim C9 (amended) witness: a concrete successful call leaving the
counter alone, and a truthy lookup resetting it, via the theorem. -/
theorem request_success_keeps_counter_witness :
    (request_json ⟨fun _ => 2, []⟩ (strCodes "itunes") (fun _ => .status 200)).1
        = ⟨fun _ => 2, []⟩
    ∧ (lookupRun (fun _ => .ok (some ⟨some [97], none, none, none, none⟩))
        ⟨fun _ => 2, []⟩ [strCodes "itunes"]).finalState.failures (strCodes "itunes") = 0
    ∧ (lookupRun (fun _ => .ok (some ⟨some [97], none, none, none, none⟩))
        ⟨fun _ => 2, []⟩ [strCodes "itunes"]).found
        = some ⟨some [97], none, none, none, none⟩ :=
  request_success_keeps_counter ⟨fun _ => 2, []⟩ (strCodes "itunes")
    (fun _ => .status 200) 200 (fun _ => .ok (some ⟨some [97], none, none, none, none⟩))
    [] (some ⟨some [97], none, none, none, none⟩)
    (by rfl) (by simp) (by rfl) (by rfl)

/-- Claim C7 (amended): when a segment's key method is exactly
`"AES-128"` and its key URI is absent or empty, the download loop stops
at that segment with the `HlsParseError`: the segment's own bytes are
fetched (the fetch happens before the key check), but no key is fetched
and nothing further is decrypted or written. -/
theorem missing_key_uri_fails (ctx : DlCtx) (seg : Seg) (rest : List Seg)
    (cache : List (Str × Bytes)) (w : Bytes) (fs fk : List Str)
    (hm : seg.key.method = some aes128Codes)
    (hu : truthyOpt seg.key.uri = none) :
    downloadGo ctx (seg :: rest) cache w fs fk
      = ⟨w, fs ++ [seg.url], fk, some .manifest⟩ := by
  simp only [downloadGo]
  rw [if_pos hm, hu]

/-- Claim C7 counterexample: a segment declaring the encryption method
`SAMPLE-AES` with no key URI is not failed at all — its (still
encrypted) bytes are fetched and written with no error; and even for the
supported `AES-128` method with a missing URI, the segment's bytes are
fetched before the failure.  This refutes both the "every declared
encryption method" scope and the "rather than fetching" wording. -/
theorem encrypted_method_not_failing :
    download_hls_segments ⟨fun _ => [1, 2, 3], fun _ => [9], fun _ _ d => d⟩
        [⟨strCodes "s1", ⟨some (strCodes "SAMPLE-AES"), none, none⟩, 0⟩]
      = ⟨[1, 2, 3], [strCodes "s1"], [], none⟩
    ∧ download_hls_segments ⟨fun _ => [1, 2, 3], fun _ => [9], fun _ _ d => d⟩
        [⟨strCodes "s1", ⟨some aes128Codes, none, none⟩, 0⟩]
      = ⟨[], [strCodes "s1"], [], some .manifest⟩ := by
  decide

/-- Claim C7 (amended) witness: an `AES-128` segment with an empty key
URI aborts the loop mid-stream with prior output intact, its own bytes
fetched but not written and no key fetched, via the theorem. -/
theorem missing_key_uri_fails_witness :
    downloadGo ⟨fun _ => [7], fun _ => [9], fun _ _ d => d⟩
        [⟨strCodes "s2", ⟨some aes128Codes, some [], none⟩, 5⟩] [] [0]
        [strCodes "s0"] []
      = ⟨[0], [strCodes "s0"] ++ [strCodes "s2"], [], some .manifest⟩ :=
  missing_key_uri_fails ⟨fun _ => [7], fun _ => [9], fun _ _ d => d⟩
    ⟨strCodes "s2", ⟨some aes128Codes, some [], none⟩, 5⟩ [] [] [0]
    [strCodes "s0"] [] (by rfl) (by rfl)
